import Mathlib

/-!
# Verification of the scrap-email pipeline

Shallow embedding of the email-extraction / cleaning / sending pipeline
(`clean_emails.py`, `url_processor.py`, `email_sender.py`) and proofs of the
spec claims about it.  Strings are modelled as `List Char`; Python `re`
behaviour for the two concrete patterns of the program is implemented
directly (leftmost search, greedy quantifiers with the only backtracking
point those patterns actually have, the `{2,6}` counted repetition before a
word boundary).
-/

/-! ## Character classes of the two regular expressions

Strict pattern (clean_emails.py):
  `([a-zA-Z0-9_.+-]+@[a-zA-Z0-9-]+\.[a-zA-Z0-9-]{2,6})\b`
Loose pattern (url_processor.py):
  `[a-zA-Z0-9._%+-]+@[a-zA-Z0-9.-]+\.[a-zA-Z]{2,}`
-/

/-- Charset `[a-zA-Z0-9_.+-]` of the strict local part. -/
def isLocalChar (c : Char) : Bool :=
  c.isAlphanum || c = '_' || c = '.' || c = '+' || c = '-'

/-- Charset `[a-zA-Z0-9-]` of the strict domain label and strict TLD. -/
def isDomChar (c : Char) : Bool :=
  c.isAlphanum || c = '-'

/-- Word characters for the `\b` assertion of Python `re`: `[a-zA-Z0-9_]`. -/
def isWordChar (c : Char) : Bool :=
  c.isAlphanum || c = '_'

/-- Charset `[a-zA-Z0-9._%+-]` of the loose local part. -/
def isLooseLocalChar (c : Char) : Bool :=
  c.isAlphanum || c = '.' || c = '_' || c = '%' || c = '+' || c = '-'

/-- Charset `[a-zA-Z0-9.-]` of the loose domain part. -/
def isLooseDomChar (c : Char) : Bool :=
  c.isAlphanum || c = '.' || c = '-'

/-! ## The strict matcher: `re.search(EMAIL_REGEX, email)` of clean_emails.py

The pattern has a single effective backtracking point: the `{2,6}` counted
repetition, which the engine shrinks from its greedy extent down to 2 until
the trailing `\b` holds.  The `+` repetitions never backtrack usefully
because the character that must follow them (`@`, `.`) is outside the
repeated charset, so the maximal run is the only viable extent.
-/

/-- `\b` between the last consumed TLD character and the following character
(`none` = end of input): exactly one side is a word character. -/
def boundaryOk (last : Char) (next : Option Char) : Bool :=
  isWordChar last != (match next with
    | some c => isWordChar c
    | none => false)

/-- Whether cutting the TLD run `run` after `k` characters satisfies `\b`,
where `rest` is the input remaining after the whole run. -/
def cutOk (run rest : List Char) (k : Nat) : Bool :=
  match (run.take k).getLast? with
  | none => false
  | some last =>
    boundaryOk last (match run.drop k with
      | c :: _ => some c
      | [] => rest.head?)

/-- Greedy `{2,6}` with backtracking: try the cut `k` first, then `k-1`, …,
down to 2; `some k` is the first (largest) cut where `\b` holds. -/
def pickK : Nat → List Char → List Char → Option Nat
  | 0, _, _ => none
  | 1, _, _ => none
  | k + 2, run, rest =>
    if cutOk run rest (k + 2) then some (k + 2) else pickK (k + 1) run rest

/-- Match `[a-zA-Z0-9-]{2,6}\b` against the start of `r4`; returns the
consumed TLD characters. -/
def tldPart (r4 : List Char) : Option (List Char) :=
  let run := r4.takeWhile isDomChar
  match pickK (min 6 run.length) run (r4.dropWhile isDomChar) with
  | some k => some (run.take k)
  | none => none

/-- Match `[a-zA-Z0-9-]+\.[a-zA-Z0-9-]{2,6}\b` (the part after `@`) against
the start of `r2`; returns the consumed characters. -/
def afterAt (r2 : List Char) : Option (List Char) :=
  let dom := r2.takeWhile isDomChar
  if dom = [] then none
  else
    match r2.dropWhile isDomChar with
    | b :: r4 =>
      if b = '.' then (tldPart r4).map (fun t => dom ++ '.' :: t) else none
    | [] => none

/-- Try to match the whole strict pattern at the start of `s`; returns the
captured group. -/
def matchAt (s : List Char) : Option (List Char) :=
  let loc := s.takeWhile isLocalChar
  if loc = [] then none
  else
    match s.dropWhile isLocalChar with
    | a :: r2 =>
      if a = '@' then (afterAt r2).map (fun rest => loc ++ '@' :: rest)
      else none
    | [] => none

/-- `re.search`: try each start position left to right, return the first
match's group, or `[]` when there is none. -/
def searchClean : List Char → List Char
  | [] => []
  | c :: t =>
    match matchAt (c :: t) with
    | some g => g
    | none => searchClean t

/-- `clean_email` of clean_emails.py: the first strict match's captured
group, or the empty string when the pattern does not occur. -/
def clean_email (s : String) : String :=
  ⟨searchClean s.data⟩

example : clean_email "john.doe@example.com" = "john.doe@example.com" := by decide
example : clean_email "foo bar@baz.com junk" = "bar@baz.com" := by decide
example : clean_email "not an email" = "" := by decide
example : clean_email "a@b.cc----x" = "a@b.cc----" := by decide
example : clean_email "x@y.comwords more" = "" := by decide
example : clean_email "hello@firm.io!" = "hello@firm.io" := by decide
example : clean_email "" = "" := by decide

/-! ## Structure of a successful strict match (claims C1 and C10) -/

/-- `pat` occurs as a contiguous substring of `s`. -/
def containsSubP (pat s : List Char) : Prop :=
  ∃ pre post, s = pre ++ pat ++ post

/-- The shape the spec calls "the strict email pattern": local part over
`[a-zA-Z0-9_.+-]`, a single domain label over `[a-zA-Z0-9-]`, and a TLD of
2 to 6 characters. -/
def matchesStrictShape (g : List Char) : Prop :=
  ∃ l d t, g = l ++ '@' :: (d ++ '.' :: t) ∧
    l ≠ [] ∧ (∀ c ∈ l, isLocalChar c = true) ∧
    d ≠ [] ∧ (∀ c ∈ d, isDomChar c = true) ∧
    (∀ c ∈ t, isDomChar c = true) ∧ 2 ≤ t.length ∧ t.length ≤ 6

lemma mem_takeWhile_pred {α} {p : α → Bool} :
    ∀ {l : List α} {a : α}, a ∈ l.takeWhile p → p a = true := by
  intro l
  induction l with
  | nil => intro a h; simp [List.takeWhile] at h
  | cons x xs ih =>
    intro a h
    cases hx : p x with
    | false => rw [List.takeWhile_cons, hx] at h; simp at h
    | true =>
      simp only [List.takeWhile_cons, hx, if_true, List.mem_cons] at h
      cases h with
      | inl h => exact h ▸ hx
      | inr h => exact ih h

lemma pickK_bounds (run rest : List Char) :
    ∀ n k, pickK n run rest = some k → 2 ≤ k ∧ k ≤ n := by
  intro n
  induction n with
  | zero => intro k h; simp [pickK] at h
  | succ m ih =>
    intro k h
    cases m with
    | zero => simp [pickK] at h
    | succ m2 =>
      simp only [pickK] at h
      split at h
      · cases h
        exact ⟨by omega, le_refl _⟩
      · have := ih k h
        exact ⟨this.1, by omega⟩

lemma tldPart_spec {r4 t : List Char} (h : tldPart r4 = some t) :
    (∃ post, r4 = t ++ post) ∧ (∀ c ∈ t, isDomChar c = true) ∧
      2 ≤ t.length ∧ t.length ≤ 6 := by
  simp only [tldPart] at h
  cases hp : pickK (min 6 (r4.takeWhile isDomChar).length)
      (r4.takeWhile isDomChar) (r4.dropWhile isDomChar) with
  | none => rw [hp] at h; cases h
  | some k =>
    rw [hp] at h
    simp only [Option.some.injEq] at h
    obtain ⟨hk2, hkmin⟩ := pickK_bounds _ _ _ _ hp
    have hklen : k ≤ (r4.takeWhile isDomChar).length :=
      le_trans hkmin (min_le_right _ _)
    have hk6 : k ≤ 6 := le_trans hkmin (min_le_left _ _)
    have hlen : t.length = k := by
      rw [← h, List.length_take]
      exact Nat.min_eq_left hklen
    refine ⟨⟨(r4.takeWhile isDomChar).drop k ++ r4.dropWhile isDomChar, ?_⟩,
      ?_, ?_, ?_⟩
    · conv_lhs => rw [← List.takeWhile_append_dropWhile (p := isDomChar) (l := r4)]
      rw [← List.append_assoc, ← h, List.take_append_drop]
    · intro c hc
      rw [← h] at hc
      exact mem_takeWhile_pred (List.take_subset _ _ hc)
    · omega
    · omega

lemma afterAt_spec {r2 rest : List Char} (h : afterAt r2 = some rest) :
    ∃ d t post, rest = d ++ '.' :: t ∧ r2 = rest ++ post ∧
      d ≠ [] ∧ (∀ c ∈ d, isDomChar c = true) ∧
      (∀ c ∈ t, isDomChar c = true) ∧ 2 ≤ t.length ∧ t.length ≤ 6 := by
  simp only [afterAt] at h
  split at h
  · cases h
  · rename_i hdom
    split at h
    · rename_i b r4 hdw
      split at h
      · rename_i hb
        subst hb
        cases ht : tldPart r4 with
        | none => rw [ht] at h; cases h
        | some t =>
          rw [ht] at h
          simp only [Option.map_some', Option.some.injEq] at h
          obtain ⟨⟨post, hpost⟩, htdom, ht2, ht6⟩ := tldPart_spec ht
          refine ⟨r2.takeWhile isDomChar, t, post, h.symm, ?_, hdom, ?_,
            htdom, ht2, ht6⟩
          · rw [← h]
            have hsplit : r2 = r2.takeWhile isDomChar ++ ('.' :: r4) := by
              conv_lhs => rw [← List.takeWhile_append_dropWhile
                (p := isDomChar) (l := r2)]
              rw [hdw]
            conv_lhs => rw [hsplit]
            rw [hpost]
            simp
          · intro c hc; exact mem_takeWhile_pred hc
      · cases h
    · cases h

lemma matchAt_spec {s g : List Char} (h : matchAt s = some g) :
    (∃ post, s = g ++ post) ∧ matchesStrictShape g := by
  simp only [matchAt] at h
  split at h
  · cases h
  · rename_i hloc
    split at h
    · rename_i a r2 hdw
      split at h
      · rename_i ha
        subst ha
        cases hr : afterAt r2 with
        | none => rw [hr] at h; cases h
        | some rest =>
          rw [hr] at h
          simp only [Option.map_some', Option.some.injEq] at h
          obtain ⟨d, t, post, hrest, hr2, hd, hddom, htdom, ht2, ht6⟩ :=
            afterAt_spec hr
          constructor
          · refine ⟨post, ?_⟩
            rw [← h]
            have hsplit : s = s.takeWhile isLocalChar ++ ('@' :: r2) := by
              conv_lhs => rw [← List.takeWhile_append_dropWhile
                (p := isLocalChar) (l := s)]
              rw [hdw]
            conv_lhs => rw [hsplit]
            rw [hr2]
            simp
          · refine ⟨s.takeWhile isLocalChar, d, t, ?_, hloc, ?_, hd, hddom,
              htdom, ht2, ht6⟩
            · rw [← h, hrest]
            · intro c hc; exact mem_takeWhile_pred hc
      · cases h
    · cases h

lemma searchClean_spec :
    ∀ s : List Char, (searchClean s = [] ∨ matchesStrictShape (searchClean s)) ∧
      containsSubP (searchClean s) s := by
  intro s
  induction s with
  | nil => exact ⟨Or.inl rfl, [], [], rfl⟩
  | cons c t ih =>
    cases hm : matchAt (c :: t) with
    | some g =>
      have hg := matchAt_spec hm
      obtain ⟨⟨post, hpost⟩, hshape⟩ := hg
      constructor
      · right
        simpa [searchClean, hm] using hshape
      · refine ⟨[], post, ?_⟩
        simpa [searchClean, hm] using hpost
    | none =>
      obtain ⟨hshape, pre, post, hsub⟩ := ih
      constructor
      · simpa [searchClean, hm] using hshape
      · refine ⟨c :: pre, post, ?_⟩
        simp only [searchClean, hm]
        conv_lhs => rw [hsub]
        simp

/-- C1: for every input string `s`, `clean_email s` returns either the empty
string or a string of the strict email shape (local part over
`[A-Za-z0-9_.+-]`, a single domain label over `[A-Za-z0-9-]`, and a TLD of
2 to 6 characters); it never returns a partial or malformed value, and it is
a total function, so it never fails on malformed input. -/
theorem clean_email_valid_or_empty (s : String) :
    clean_email s = "" ∨ matchesStrictShape (clean_email s).data := by
  rcases (searchClean_spec s.data).1 with h | h
  · left
    show (⟨searchClean s.data⟩ : String) = ""
    rw [h]
  · right
    exact h

/-- C10: for every input string `s`, `clean_email s` is a contiguous
substring of `s` — it never invents, reorders, or concatenates characters
that do not appear consecutively in the input. -/
theorem clean_email_substring_of_input (s : String) :
    containsSubP (clean_email s).data s.data :=
  (searchClean_spec s.data).2

/-! ## The cleaning pass over the CSV rows (clean_emails_file)

A row is a list of fields; each field is a string (`List Char`).  The file
reading and writing is plumbing outside the spec scope; the row
transformation between them is embedded here.
-/

/-- Python `str.split(";")`: cut at every semicolon, keeping empty pieces. -/
def splitSemi : List Char → List (List Char)
  | [] => [[]]
  | c :: t =>
    if c = ';' then [] :: splitSemi t
    else
      match splitSemi t with
      | h :: rs => (c :: h) :: rs
      | [] => [[c]]

example : splitSemi "a;;b".data = ["a".data, [], "b".data] := by decide
example : splitSemi "".data = [[]] := by decide

/-- The inner loop of `clean_emails_file`: clean each piece with the strict
matcher and keep only the non-empty results. -/
def cleanEmailList : List (List Char) → List (List Char)
  | [] => []
  | e :: t =>
    if searchClean e = [] then cleanEmailList t
    else searchClean e :: cleanEmailList t

/-- Cleaning of one emails field: split on `;`, clean, keep non-empty. -/
def cleanRowEmails (es : List Char) : List (List Char) :=
  cleanEmailList (splitSemi es)

/-- Python `";".join`. -/
def joinSemi : List (List Char) → List Char
  | [] => []
  | [e] => e
  | e :: rest => e ++ ';' :: joinSemi rest

example : joinSemi (cleanRowEmails "a@b.com; not-an-email; c@d.io".data) =
    "a@b.com;c@d.io".data := by decide

/-- Recognized names for the emails column (compared lower-cased):
`emails`, `email`, `mail`, `courriel`. -/
def isEmailColName (s : List Char) : Bool :=
  s == "emails".data || s == "email".data || s == "mail".data ||
    s == "courriel".data

/-- Python `str.lower`, ASCII as exercised by the recognized names. -/
def lowerChars (s : List Char) : List Char :=
  s.map Char.toLower

/-- First header index whose lower-cased cell is a recognized name. -/
def emailColIdxFrom : Nat → List (List Char) → Option Nat
  | _, [] => none
  | i, c :: t =>
    if isEmailColName (lowerChars c) then some i else emailColIdxFrom (i + 1) t

/-- The emails column of `clean_emails_file`: first recognized header name,
defaulting to the last column. -/
def emailColIdx (header : List (List Char)) : Nat :=
  match emailColIdxFrom 0 header with
  | some i => i
  | none => header.length - 1

/-- One iteration of the row loop of `clean_emails_file`: rows too short to
reach the emails column are skipped (`continue`), rows with an empty emails
field are kept unchanged, and otherwise the emails field is replaced by the
re-joined cleaned list. -/
def cleanRow (idx : Nat) (row : List (List Char)) : Option (List (List Char)) :=
  if row.length ≤ idx then none
  else if row.getD idx [] = [] then some row
  else some (row.set idx (joinSemi (cleanRowEmails (row.getD idx []))))

/-- The row transformation of `clean_emails_file`: header kept, each data
row cleaned, too-short rows dropped. -/
def cleanEmailsData : List (List (List Char)) → List (List (List Char))
  | [] => []
  | header :: rows => header :: rows.filterMap (cleanRow (emailColIdx header))

/-- The `total_emails_before` / `total_emails_after` counters of
`clean_emails_file` (incremented only on processed rows with a non-empty
emails field). -/
def cleanCounters (idx : Nat) (rows : List (List (List Char))) : Nat × Nat :=
  rows.foldl
    (fun acc row =>
      if row.length ≤ idx then acc
      else if row.getD idx [] = [] then acc
      else (acc.1 + (splitSemi (row.getD idx [])).length,
            acc.2 + (cleanRowEmails (row.getD idx [])).length))
    (0, 0)

lemma cleanEmailList_length_le :
    ∀ l : List (List Char), (cleanEmailList l).length ≤ l.length := by
  intro l
  induction l with
  | nil => exact Nat.le_refl 0
  | cons e t ih =>
    simp only [cleanEmailList]
    split
    · exact Nat.le_succ_of_le ih
    · simpa using Nat.succ_le_succ ih

lemma cleanRowEmails_length_le (es : List Char) :
    (cleanRowEmails es).length ≤ (splitSemi es).length :=
  cleanEmailList_length_le (splitSemi es)

lemma cleanCounters_fold_le (idx : Nat) :
    ∀ (rows : List (List (List Char))) (a b : Nat), b ≤ a →
      (rows.foldl
        (fun acc row =>
          if row.length ≤ idx then acc
          else if row.getD idx [] = [] then acc
          else (acc.1 + (splitSemi (row.getD idx [])).length,
                acc.2 + (cleanRowEmails (row.getD idx [])).length))
        (a, b)).2 ≤
      (rows.foldl
        (fun acc row =>
          if row.length ≤ idx then acc
          else if row.getD idx [] = [] then acc
          else (acc.1 + (splitSemi (row.getD idx [])).length,
                acc.2 + (cleanRowEmails (row.getD idx [])).length))
        (a, b)).1 := by
  intro rows
  induction rows with
  | nil => intro a b hab; exact hab
  | cons r rs ih =>
    intro a b hab
    simp only [List.foldl_cons]
    split
    · exact ih a b hab
    · split
      · exact ih a b hab
      · exact ih _ _ (Nat.add_le_add hab (cleanRowEmails_length_le _))

/-- C2: for every row processed by the cleaning pass, the number of emails
after cleaning is at most the number of candidates before cleaning, and the
aggregate after-counter of the pass is at most the aggregate
before-counter. -/
theorem cleaning_shrinks_email_counts :
    (∀ es : List Char, (cleanRowEmails es).length ≤ (splitSemi es).length) ∧
    (∀ (idx : Nat) (rows : List (List (List Char))),
      (cleanCounters idx rows).2 ≤ (cleanCounters idx rows).1) :=
  ⟨cleanRowEmails_length_le,
   fun idx rows => cleanCounters_fold_le idx rows 0 0 (Nat.le_refl 0)⟩

/-- C4 counterexample: the cleaning pass does drop rows.  A data row with
fewer fields than needed to reach the emails column (here column index 1,
found from the header) is skipped by the row loop, so the cleaned output
holds only the header. -/
theorem cleaning_drops_short_row :
    cleanEmailsData [["name".data, "emails".data], ["solo".data]] =
      [["name".data, "emails".data]] := by decide

/-- C4 (amended): the cleaning pass drops no row that is long enough to
reach the emails column: every such data row yields an output row of the
same length whose fields other than the emails column are unchanged.
Rows with fewer fields than that are skipped. -/
theorem cleaning_keeps_long_rows (header : List (List Char))
    (rows : List (List (List Char))) (row : List (List Char))
    (hmem : row ∈ rows) (hlen : emailColIdx header < row.length) :
    ∃ r', r' ∈ cleanEmailsData (header :: rows) ∧
      cleanRow (emailColIdx header) row = some r' ∧
      r'.length = row.length ∧
      ∀ j, j ≠ emailColIdx header → r'.getD j [] = row.getD j [] := by
  have hnot : ¬ row.length ≤ emailColIdx header := Nat.not_le_of_lt hlen
  by_cases hes : row.getD (emailColIdx header) [] = []
  · have hcr : cleanRow (emailColIdx header) row = some row := by
      simp only [cleanRow, if_neg hnot, if_pos hes]
    refine ⟨row, ?_, hcr, rfl, fun j _ => rfl⟩
    exact List.mem_cons_of_mem _ (List.mem_filterMap.mpr ⟨row, hmem, hcr⟩)
  · have hcr : cleanRow (emailColIdx header) row = some (row.set (emailColIdx header)
        (joinSemi (cleanRowEmails (row.getD (emailColIdx header) [])))) := by
      simp only [cleanRow, if_neg hnot, if_neg hes]
    refine ⟨row.set (emailColIdx header)
      (joinSemi (cleanRowEmails (row.getD (emailColIdx header) []))),
      ?_, hcr, List.length_set .., ?_⟩
    · exact List.mem_cons_of_mem _
        (List.mem_filterMap.mpr ⟨row, hmem, hcr⟩)
    · intro j hj
      rw [List.getD_eq_getElem?_getD, List.getD_eq_getElem?_getD,
        List.getElem?_set_ne (Ne.symm hj), ← List.getD_eq_getElem?_getD]

/-- Witness for the amended C4 on a concrete table. -/
theorem cleaning_keeps_long_rows_witness :
    ∃ r', r' ∈ cleanEmailsData
        [["name".data, "emails".data], ["bob".data, "x@y.com;bad".data]] ∧
      cleanRow (emailColIdx ["name".data, "emails".data])
        ["bob".data, "x@y.com;bad".data] = some r' ∧
      r'.length = (["bob".data, "x@y.com;bad".data] : List (List Char)).length ∧
      ∀ j, j ≠ emailColIdx ["name".data, "emails".data] →
        r'.getD j [] = (["bob".data, "x@y.com;bad".data] : List (List Char)).getD j [] :=
  cleaning_keeps_long_rows ["name".data, "emails".data]
    [["bob".data, "x@y.com;bad".data]] ["bob".data, "x@y.com;bad".data]
    (by decide) (by decide)

/-! ## mailto harvesting (url_processor.extract_emails_from_url, claim C3)

The code does `email = href[7:]` after `href.startswith('mailto:')` and adds
the whole remainder when it contains an `@`; nothing strips a query string.
-/

/-- The candidate harvested from one anchor href by the mailto branch:
strip the 7-character `mailto:` prefix, keep the remainder when it contains
an `@`. -/
def mailtoCandidate (href : List Char) : Option (List Char) :=
  match href with
  | 'm' :: 'a' :: 'i' :: 'l' :: 't' :: 'o' :: ':' :: rest =>
    if rest.contains '@' then some rest else none
  | _ => none

/-- C3 counterexample: for the link `mailto:info@shop.test?subject=hi` the
harvested candidate keeps the query string; it is not `info@shop.test`. -/
theorem mailto_keeps_query_string :
    mailtoCandidate "mailto:info@shop.test?subject=hi".data =
        some "info@shop.test?subject=hi".data ∧
      mailtoCandidate "mailto:info@shop.test?subject=hi".data ≠
        some "info@shop.test".data := by
  constructor
  · decide
  · decide

/-- C3 (amended): for every anchor whose href begins with `mailto:`, the
harvested candidate is the entire remainder of the href after the prefix —
query string included — provided that remainder contains an `@`. -/
theorem mailto_candidate_is_suffix (rest : List Char)
    (h : rest.contains '@' = true) :
    mailtoCandidate ('m' :: 'a' :: 'i' :: 'l' :: 't' :: 'o' :: ':' :: rest) =
      some rest := by
  simp only [mailtoCandidate, h, if_true]

/-- Witness for the amended C3 at the spec's own example link. -/
theorem mailto_candidate_is_suffix_witness :
    mailtoCandidate ('m' :: 'a' :: 'i' :: 'l' :: 't' :: 'o' :: ':' ::
        "info@shop.test?subject=hi".data) =
      some "info@shop.test?subject=hi".data :=
  mailto_candidate_is_suffix "info@shop.test?subject=hi".data (by decide)

/-! ## Substring containment (Python `in` on strings) -/

/-- `pat` is an initial segment of `s`. -/
def startsWithB : List Char → List Char → Bool
  | [], _ => true
  | _ :: _, [] => false
  | a :: as, b :: bs => a == b && startsWithB as bs

/-- Python `pat in s`: `pat` occurs contiguously somewhere in `s`. -/
def hasSubB (pat : List Char) : List Char → Bool
  | [] => startsWithB pat []
  | s@(_ :: t) => startsWithB pat s || hasSubB pat t

lemma startsWithB_iff (pat : List Char) :
    ∀ s, startsWithB pat s = true ↔ ∃ rest, s = pat ++ rest := by
  induction pat with
  | nil =>
    intro s
    simp only [startsWithB, List.nil_append]
    exact ⟨fun _ => ⟨s, rfl⟩, fun _ => trivial⟩
  | cons a as ih =>
    intro s
    cases s with
    | nil =>
      simp only [startsWithB]
      constructor
      · intro h; cases h
      · rintro ⟨rest, h⟩; cases h
    | cons b bs =>
      simp only [startsWithB, Bool.and_eq_true, beq_iff_eq]
      constructor
      · rintro ⟨rfl, h⟩
        obtain ⟨rest, rfl⟩ := (ih bs).mp h
        exact ⟨rest, rfl⟩
      · rintro ⟨rest, h⟩
        injection h with h1 h2
        exact ⟨h1.symm, (ih bs).mpr ⟨rest, h2⟩⟩

lemma hasSubB_iff (pat : List Char) :
    ∀ s, hasSubB pat s = true ↔ containsSubP pat s := by
  intro s
  induction s with
  | nil =>
    simp only [hasSubB, startsWithB_iff, containsSubP]
    constructor
    · rintro ⟨rest, h⟩
      exact ⟨[], rest, by simpa using h⟩
    · rintro ⟨pre, post, h⟩
      rcases List.append_eq_nil.mp ((List.append_eq_nil.mp h.symm).1) with ⟨h1, h2⟩
      exact ⟨post, by simp [h2, (List.append_eq_nil.mp h.symm).2]⟩
  | cons c t ih =>
    simp only [hasSubB, Bool.or_eq_true, startsWithB_iff, ih, containsSubP]
    constructor
    · rintro (⟨rest, h⟩ | ⟨pre, post, h⟩)
      · exact ⟨[], rest, by simpa using h⟩
      · exact ⟨c :: pre, post, by simp [h]⟩
    · rintro ⟨pre, post, h⟩
      cases pre with
      | nil => exact Or.inl ⟨post, by simpa using h⟩
      | cons p ps =>
        right
        injection h with h1 h2
        exact ⟨ps, post, h2⟩

/-! ## Contact-like anchor classification (url_processor, claim C6)

Code: `'contact' in href.lower() or 'contact' in text or 'about' in
href.lower() or 'à propos' in text`, with `text` the anchor text already
lower-cased.  `about` is only tested against the href and `à propos` only
against the text.
-/

/-- The classification the code performs on one anchor, given its raw href
and its raw visible text. -/
def isContactLike (href text : List Char) : Bool :=
  hasSubB "contact".data (lowerChars href) ||
    hasSubB "contact".data (lowerChars text) ||
    hasSubB "about".data (lowerChars href) ||
    hasSubB "à propos".data (lowerChars text)

/-- The keyword set named by the spec. -/
def contactKeywords : List (List Char) :=
  ["contact".data, "about".data, "à propos".data]

/-- The classification as the claim states it, written from the spec words:
every keyword of the set is matched symmetrically against both the href and
the visible text (case-insensitive). -/
def isContactLikeSpec (href text : List Char) : Bool :=
  contactKeywords.any
    (fun k => hasSubB k (lowerChars href) || hasSubB k (lowerChars text))

/-- C6 counterexample: an anchor whose visible text contains `about` but
whose href contains no keyword is not classified contact-like by the code,
while the symmetric keyword matching of the claim classifies it
contact-like. -/
theorem contact_like_not_symmetric :
    isContactLike "/p".data "About us".data = false ∧
      isContactLikeSpec "/p".data "About us".data = true := by
  constructor
  · decide
  · decide

/-- C6 (amended): an anchor is contact-like exactly when its lower-cased
href contains `contact` or `about`, or its lower-cased visible text contains
`contact` or `à propos`: `contact` is matched against both fields, `about`
only against the href, and `à propos` only against the text. -/
theorem contact_like_characterization (href text : List Char) :
    isContactLike href text = true ↔
      (containsSubP "contact".data (lowerChars href) ∨
       containsSubP "contact".data (lowerChars text) ∨
       containsSubP "about".data (lowerChars href) ∨
       containsSubP "à propos".data (lowerChars text)) := by
  simp only [isContactLike, Bool.or_eq_true, hasSubB_iff]
  tauto

/-! ## URL validation and scheme prefixing (extract_emails_from_url, C5)

The code checks `validators.url(url)` first and returns the empty result on
failure; only afterwards does it prepend `https://` when the URL does not
start with `http://` or `https://`.  The external validator is kept
abstract as a parameter of the embedding.
-/

/-- Does the URL already start with an explicit http(s) scheme? -/
def startsHttp (url : List Char) : Bool :=
  startsWithB "http://".data url || startsWithB "https://".data url

/-- The pre-network control flow of `extract_emails_from_url`: `none` means
the function short-circuits with an empty result and no GET; `some u` means
it proceeds to issue the GET against `u`. -/
def fetchPlan (validate : List Char → Bool) (url : List Char) :
    Option (List Char) :=
  if validate url then
    if startsHttp url then some url else some ("https://".data ++ url)
  else none

/-- C5 counterexample: a scheme-less URL that the validator rejects is
short-circuited before the prefix step, so no GET against the prefixed URL
is ever issued — contradicting the unconditional "prepends and proceeds"
part of the claim. -/
theorem fetch_no_prepend_when_invalid :
    startsHttp "example.com".data = false ∧
      fetchPlan (fun _ => false) "example.com".data = none ∧
      fetchPlan (fun _ => false) "example.com".data ≠
        some ("https://".data ++ "example.com".data) :=
  ⟨by decide, rfl, by decide⟩

/-- C5 (amended): the fetch operation validates the URL before any network
call and short-circuits with an empty result when validation fails; for
every URL that passes validation and lacks an `http://` or `https://`
scheme, it prepends `https://` and issues the GET against the prefixed
URL. -/
theorem fetch_validates_then_prepends (validate : List Char → Bool)
    (url : List Char) :
    (validate url = false → fetchPlan validate url = none) ∧
    (validate url = true → startsHttp url = false →
      fetchPlan validate url = some ("https://".data ++ url)) := by
  constructor
  · intro h
    simp [fetchPlan, h]
  · intro h1 h2
    simp [fetchPlan, h1, h2]

/-- Witness for the amended C5 at concrete validator outcomes. -/
theorem fetch_validates_then_prepends_witness :
    fetchPlan (fun _ => false) "example.com".data = none ∧
      fetchPlan (fun _ => true) "example.com".data =
        some ("https://".data ++ "example.com".data) :=
  ⟨(fetch_validates_then_prepends (fun _ => false) "example.com".data).1 rfl,
   (fetch_validates_then_prepends (fun _ => true) "example.com".data).2 rfl
     (by decide)⟩

/-! ## Full-match languages of the two patterns (claim C7)

A full match of the strict pattern decomposes uniquely as
`local ++ "@" ++ label ++ "." ++ tld` because `@` is in no charset and the
pieces around the dot admit no dot; the trailing `\b` at end of input
requires the last TLD character to be a word character.  A full match of
the loose pattern splits at its unique `@` and at the last dot of the
domain part, because the all-letter TLD admits no dot.
-/

/-- Decides whether the strict pattern matches `s` entirely. -/
def strictFullB (s : List Char) : Bool :=
  match s.dropWhile isLocalChar with
  | a :: r2 =>
    !(s.takeWhile isLocalChar).isEmpty && a == '@' &&
      (match r2.dropWhile isDomChar with
       | b :: t =>
         !(r2.takeWhile isDomChar).isEmpty && b == '.' &&
           t.all isDomChar && decide (2 ≤ t.length) &&
           decide (t.length ≤ 6) &&
           (match t.getLast? with
            | some c => c.isAlphanum
            | none => false)
       | [] => false)
  | [] => false

/-- Decides whether the loose pattern matches `s` entirely. -/
def looseFullB (s : List Char) : Bool :=
  match s.dropWhile isLooseLocalChar with
  | a :: r2 =>
    !(s.takeWhile isLooseLocalChar).isEmpty && a == '@' &&
      (match r2.reverse.dropWhile (fun c => !(c == '.')) with
       | b :: dR =>
         b == '.' && !dR.isEmpty && dR.all isLooseDomChar &&
           (r2.reverse.takeWhile (fun c => !(c == '.'))).all Char.isAlpha &&
           decide (2 ≤ (r2.reverse.takeWhile (fun c => !(c == '.'))).length)
       | [] => false)
  | [] => false

example : strictFullB "john.doe@example.com".data = true := by decide
example : looseFullB "john.doe@example.com".data = true := by decide
example : looseFullB "john.doe@mail.example.co".data = true := by decide
example : strictFullB "john.doe@mail.example.co".data = false := by decide
example : strictFullB "a@b.cc----".data = false := by decide
example : strictFullB "hello@firm.io!".data = false := by decide

/-- C7 counterexample: `a@b.12` is fully matched by the strict cleaning
pattern (its TLD charset allows digits) but not matched by the loose
extraction pattern (whose TLD is letters only), so the strict language is
not a subset of the loose one. -/
theorem strict_not_subset_of_loose :
    strictFullB "a@b.12".data = true ∧ looseFullB "a@b.12".data = false :=
  ⟨by decide, by decide⟩

lemma takeWhile_all_append {α} (p : α → Bool) :
    ∀ (l r : List α), (∀ a ∈ l, p a = true) →
      (l ++ r).takeWhile p = l ++ r.takeWhile p := by
  intro l
  induction l with
  | nil => intro r _; rfl
  | cons x xs ih =>
    intro r h
    rw [List.cons_append, List.takeWhile_cons_of_pos (h x (by simp)),
      ih r (fun a ha => h a (by simp [ha])), List.cons_append]

lemma dropWhile_all_append {α} (p : α → Bool) :
    ∀ (l r : List α), (∀ a ∈ l, p a = true) →
      (l ++ r).dropWhile p = r.dropWhile p := by
  intro l
  induction l with
  | nil => intro r _; rfl
  | cons x xs ih =>
    intro r h
    rw [List.cons_append, List.dropWhile_cons_of_pos (h x (by simp)),
      ih r (fun a ha => h a (by simp [ha]))]

lemma local_imp_looseLocal {c : Char} (h : isLocalChar c = true) :
    isLooseLocalChar c = true := by
  simp only [isLocalChar, Bool.or_eq_true, decide_eq_true_eq] at h
  simp only [isLooseLocalChar, Bool.or_eq_true, decide_eq_true_eq]
  tauto

lemma dom_imp_looseDom {c : Char} (h : isDomChar c = true) :
    isLooseDomChar c = true := by
  simp only [isDomChar, Bool.or_eq_true, decide_eq_true_eq] at h
  simp only [isLooseDomChar, Bool.or_eq_true, decide_eq_true_eq]
  tauto

lemma alpha_imp_dom {c : Char} (h : c.isAlpha = true) :
    isDomChar c = true := by
  simp [isDomChar, Char.isAlphanum, h]

lemma alpha_ne_dot {c : Char} (h : c.isAlpha = true) : c ≠ '.' := by
  intro hc
  subst hc
  simp [Char.isAlpha, Char.isLower, Char.isUpper] at h

/-- C7 (amended): every string of the strict full-match shape whose TLD
consists of letters only lies in both languages: the strict pattern matches
it fully and so does the loose pattern.  (Without the letters-only
restriction on the TLD the inclusion fails, see the digit-TLD
counterexample.) -/
theorem strict_alpha_tld_in_loose (l d t : List Char)
    (hl : l ≠ []) (hlc : ∀ c ∈ l, isLocalChar c = true)
    (hd : d ≠ []) (hdc : ∀ c ∈ d, isDomChar c = true)
    (htc : ∀ c ∈ t, Char.isAlpha c = true)
    (ht2 : 2 ≤ t.length) (ht6 : t.length ≤ 6) :
    strictFullB (l ++ '@' :: (d ++ '.' :: t)) = true ∧
      looseFullB (l ++ '@' :: (d ++ '.' :: t)) = true := by
  have htne : t ≠ [] := by
    intro h
    subst h
    simp at ht2
  have hle : l.isEmpty = false := by
    cases l with
    | nil => exact absurd rfl hl
    | cons x xs => rfl
  have hde : d.isEmpty = false := by
    cases d with
    | nil => exact absurd rfl hd
    | cons x xs => rfl
  constructor
  · -- strict side
    have hdrop1 : (l ++ '@' :: (d ++ '.' :: t)).dropWhile isLocalChar =
        '@' :: (d ++ '.' :: t) := by
      rw [dropWhile_all_append isLocalChar l _ hlc,
        List.dropWhile_cons_of_neg (by decide)]
    have htake1 : (l ++ '@' :: (d ++ '.' :: t)).takeWhile isLocalChar = l := by
      rw [takeWhile_all_append isLocalChar l _ hlc,
        List.takeWhile_cons_of_neg (by decide), List.append_nil]
    have hdrop2 : (d ++ '.' :: t).dropWhile isDomChar = '.' :: t := by
      rw [dropWhile_all_append isDomChar d _ hdc,
        List.dropWhile_cons_of_neg (by decide)]
    have htake2 : (d ++ '.' :: t).takeWhile isDomChar = d := by
      rw [takeWhile_all_append isDomChar d _ hdc,
        List.takeWhile_cons_of_neg (by decide), List.append_nil]
    have hlast : t.getLast? = some (t.getLast htne) :=
      List.getLast?_eq_getLast t htne
    have hlastalpha : (t.getLast htne).isAlphanum = true := by
      have := htc (t.getLast htne) (t.getLast_mem htne)
      simp [Char.isAlphanum, this]
    simp only [strictFullB, hdrop1, htake1, hdrop2, htake2, hle, hde, hlast]
    simp only [Bool.not_false, beq_self_eq_true, Bool.true_and,
      Bool.and_eq_true, List.all_eq_true, decide_eq_true_eq]
    refine ⟨⟨⟨fun c hc => alpha_imp_dom (htc c hc), ht2⟩, ht6⟩, hlastalpha⟩
  · -- loose side
    have hlooseloc : ∀ c ∈ l, isLooseLocalChar c = true :=
      fun c hc => local_imp_looseLocal (hlc c hc)
    have hdrop1 : (l ++ '@' :: (d ++ '.' :: t)).dropWhile isLooseLocalChar =
        '@' :: (d ++ '.' :: t) := by
      rw [dropWhile_all_append isLooseLocalChar l _ hlooseloc,
        List.dropWhile_cons_of_neg (by decide)]
    have htake1 : (l ++ '@' :: (d ++ '.' :: t)).takeWhile isLooseLocalChar =
        l := by
      rw [takeWhile_all_append isLooseLocalChar l _ hlooseloc,
        List.takeWhile_cons_of_neg (by decide), List.append_nil]
    have hrev : (d ++ '.' :: t).reverse = t.reverse ++ '.' :: d.reverse := by
      simp
    have htrev : ∀ c ∈ t.reverse, (!(c == '.')) = true := by
      intro c hc
      have := alpha_ne_dot (htc c (List.mem_reverse.mp hc))
      simp [this]
    have hdrop2 : (t.reverse ++ '.' :: d.reverse).dropWhile
        (fun c => !(c == '.')) = '.' :: d.reverse := by
      rw [dropWhile_all_append _ _ _ htrev,
        List.dropWhile_cons_of_neg (by decide)]
    have htake2 : (t.reverse ++ '.' :: d.reverse).takeWhile
        (fun c => !(c == '.')) = t.reverse := by
      rw [takeWhile_all_append _ _ _ htrev,
        List.takeWhile_cons_of_neg (by decide), List.append_nil]
    have hdre : d.reverse.isEmpty = false := by
      cases hdr : d.reverse with
      | nil => exact absurd (List.reverse_eq_nil_iff.mp hdr) hd
      | cons x xs => rfl
    simp only [looseFullB, hdrop1, htake1, hrev, hdrop2, htake2, hle, hdre]
    simp only [Bool.not_false, beq_self_eq_true, Bool.true_and,
      Bool.and_eq_true, List.all_eq_true, decide_eq_true_eq,
      List.length_reverse]
    refine ⟨⟨fun c hc => dom_imp_looseDom (hdc c (List.mem_reverse.mp hc)),
      fun c hc => htc c (List.mem_reverse.mp hc)⟩, ht2⟩

/-- Witness for the amended C7 at `a@b.com`. -/
theorem strict_alpha_tld_in_loose_witness :
    strictFullB (['a'] ++ '@' :: (['b'] ++ '.' :: "com".data)) = true ∧
      looseFullB (['a'] ++ '@' :: (['b'] ++ '.' :: "com".data)) = true :=
  strict_alpha_tld_in_loose ['a'] ['b'] "com".data (by decide) (by decide)
    (by decide) (by decide) (by decide) (by decide) (by decide)

/-! ## Template rendering (email_sender.send_emails, claim C9)

Python `personalized_body.replace(placeholder, str(value))` applied for
every row key other than `emails`, in row order.  `str.replace` substitutes
all non-overlapping occurrences left to right and never rescans the
replacement text.
-/

/-- One scan step of `str.replace`, fuelled to keep the recursion
structural; fuel `s.length` is always sufficient because every step
consumes at least one character of `s`. -/
def replaceAllGo (pat val : List Char) : Nat → List Char → List Char
  | 0, s => s
  | fuel + 1, s =>
    if startsWithB pat s && !pat.isEmpty then
      val ++ replaceAllGo pat val fuel (s.drop pat.length)
    else
      match s with
      | [] => []
      | c :: t => c :: replaceAllGo pat val fuel t

/-- Python `s.replace(pat, val)`: all non-overlapping occurrences replaced
left to right; an empty pattern inserts `val` at every position. -/
def replaceAll (pat val s : List Char) : List Char :=
  if pat.isEmpty then val ++ s.flatMap (fun c => c :: val)
  else replaceAllGo pat val s.length s

example : replaceAll "ab".data "x".data "cababd".data = "cxxd".data := by decide
example : replaceAll "aa".data "b".data "aaaa".data = "bb".data := by decide
example : replaceAll "".data "-".data "ab".data = "-a-b-".data := by decide

/-- One key/value substitution of the send loop: keys other than `emails`
replace every `{{key}}` occurrence by the value. -/
def renderStep (body : List Char) (kv : List Char × List Char) : List Char :=
  if kv.1 == "emails".data then body
  else replaceAll ('{' :: '{' :: (kv.1 ++ ['}', '}'])) kv.2 body

/-- `render(template, row)`: substitute every non-`emails` key of the row,
in row order. -/
def render (template : List Char) (row : List (List Char × List Char)) :
    List Char :=
  row.foldl renderStep template

example : render "Hi {{name}}, re {{url}} and {{nope}}".data
    [("name".data, "Ana".data), ("url".data, "x.fr".data)] =
    "Hi Ana, re x.fr and {{nope}}".data := by decide

/-! ## The send batch (email_sender.send_emails, claim C8) -/

/-- The SMTP settings as read from the environment: `none` models an unset
variable; the port always has the literal default 587. -/
structure SmtpEnv where
  fromEmail : Option (List Char)
  server : Option (List Char)
  port : Nat
  username : Option (List Char)
  password : Option (List Char)

/-- Python truthiness of an optional string: set and non-empty. -/
def truthyS : Option (List Char) → Bool
  | none => false
  | some s => !s.isEmpty

/-- The up-front configuration check of `send_emails`:
`all([SMTP_FROM_EMAIL, SMTP_SERVER, SMTP_USERNAME, SMTP_PASSWORD])`. -/
def envReady (e : SmtpEnv) : Bool :=
  truthyS e.fromEmail && truthyS e.server && truthyS e.username &&
    truthyS e.password

/-- `send_email` for one recipient: its own `all([...])` check (including
the port) guards the SMTP session; the result is (success, network calls
made). -/
def sendEmailCall (e : SmtpEnv) (transportOk : Bool) : Bool × Nat :=
  if truthyS e.fromEmail && truthyS e.server && decide (e.port ≠ 0) &&
      truthyS e.username && truthyS e.password then
    (transportOk, 1)
  else (false, 0)

/-- Python default `str.strip` whitespace. -/
def isSpaceChar (c : Char) : Bool :=
  c = ' ' || c = '\t' || c = '\n' || c = '\r' || c = '\x0b' || c = '\x0c'

/-- Python `str.strip()`. -/
def stripChars (s : List Char) : List Char :=
  ((s.dropWhile isSpaceChar).reverse.dropWhile isSpaceChar).reverse

/-- Python `row.get('emails', '')` on an association-list row. -/
def getEmailsField (row : List (List Char × List Char)) : List Char :=
  match row.find? (fun kv => kv.1 == "emails".data) with
  | some kv => kv.2
  | none => []

/-- The batch driver `send_emails`, returning (sent count, network calls).
`templateOk` models whether the template file was readable (checked before
the configuration); `transportOk recipient body` models the outcome of the
SMTP transport for one message.  The data-shape check on the typed rows is
vacuous in the embedding. -/
def send_emails (templateOk : Bool) (template : List Char) (e : SmtpEnv)
    (transportOk : List Char → List Char → Bool)
    (rows : List (List (List Char × List Char))) : Nat × Nat :=
  if !templateOk then (0, 0)
  else if !envReady e then (0, 0)
  else
    rows.foldl
      (fun acc row =>
        (splitSemi (getEmailsField row)).foldl
          (fun acc2 email =>
            if stripChars email = [] then acc2
            else
              let r := sendEmailCall e
                (transportOk (stripChars email) (render template row))
              (acc2.1 + (if r.1 then 1 else 0), acc2.2 + r.2))
          acc)
      (0, 0)

/-- C8: when any required SMTP configuration value (sender address, server,
username, password) is absent, the batch send returns a sent count of zero
and performs no network call. -/
theorem send_skipped_without_config (templateOk : Bool)
    (template : List Char) (e : SmtpEnv)
    (transportOk : List Char → List Char → Bool)
    (rows : List (List (List Char × List Char)))
    (h : envReady e = false) :
    send_emails templateOk template e transportOk rows = (0, 0) := by
  cases templateOk <;> simp [send_emails, h]

/-- Witness for C8: a configuration with the password unset skips a
non-empty batch. -/
theorem send_skipped_without_config_witness :
    send_emails true "body {{url}}".data
      ⟨some "me@corp.fr".data, some "smtp.corp.fr".data, 587,
        some "me".data, none⟩
      (fun _ _ => true)
      [[("url".data, "shop.fr".data), ("emails".data, "a@b.com".data)]] =
      (0, 0) :=
  send_skipped_without_config true "body {{url}}".data
    ⟨some "me@corp.fr".data, some "smtp.corp.fr".data, 587,
      some "me".data, none⟩
    (fun _ _ => true)
    [[("url".data, "shop.fr".data), ("emails".data, "a@b.com".data)]]
    (by decide)

/-- C9 counterexample: rendering is not idempotent even when no value
contains any placeholder token (here no value contains a brace at all):
substituting `ng` for `{{a}}` in `{{lo{{a}}}}` manufactures the new
placeholder `{{long}}`, whose key was already processed, so a second render
changes the output again. -/
theorem render_not_idempotent :
    (([("long".data, "X".data), ("a".data, "ng".data)] :
        List (List Char × List Char)).all
      (fun kv => !hasSubB ['{', '{'] kv.2 && !hasSubB ['}', '}'] kv.2)) =
        true ∧
    render "{{lo{{a}}}}".data
        [("long".data, "X".data), ("a".data, "ng".data)] =
      "{{long}}".data ∧
    render (render "{{lo{{a}}}}".data
        [("long".data, "X".data), ("a".data, "ng".data)])
        [("long".data, "X".data), ("a".data, "ng".data)] ≠
      render "{{lo{{a}}}}".data
        [("long".data, "X".data), ("a".data, "ng".data)] :=
  ⟨by decide, by decide, by decide⟩

lemma replaceAllGo_no_occurrence (pat val : List Char) :
    ∀ (fuel : Nat) (s : List Char), hasSubB pat s = false →
      replaceAllGo pat val fuel s = s := by
  intro fuel
  induction fuel with
  | zero => intro s _; rfl
  | succ f ih =>
    intro s h
    have hsw : startsWithB pat s = false := by
      cases s with
      | nil => simpa [hasSubB] using h
      | cons c t =>
        simp only [hasSubB, Bool.or_eq_false_iff] at h
        exact h.1
    cases s with
    | nil =>
      simp only [replaceAllGo, hsw, Bool.false_and, Bool.false_eq_true,
        if_false]
    | cons c t =>
      simp only [hasSubB, Bool.or_eq_false_iff] at h
      simp only [replaceAllGo, hsw, Bool.false_and, Bool.false_eq_true,
        if_false]
      show c :: replaceAllGo pat val f t = c :: t
      rw [ih t h.2]

lemma replaceAll_no_occurrence (pat val s : List Char) (hpat : pat ≠ [])
    (h : hasSubB pat s = false) : replaceAll pat val s = s := by
  have hpe : pat.isEmpty = false := by
    cases pat with
    | nil => exact absurd rfl hpat
    | cons a as => rfl
  simp only [replaceAll, hpe, Bool.false_eq_true, if_false]
  exact replaceAllGo_no_occurrence pat val s.length s h

lemma render_fixed_of_no_placeholder :
    ∀ (row : List (List Char × List Char)) (body : List Char),
      (∀ kv ∈ row, kv.1 ≠ "emails".data →
        hasSubB ('{' :: '{' :: (kv.1 ++ ['}', '}'])) body = false) →
      row.foldl renderStep body = body := by
  intro row
  induction row with
  | nil => intro body _; rfl
  | cons kv rs ih =>
    intro body h
    have hstep : renderStep body kv = body := by
      by_cases hk : kv.1 = "emails".data
      · simp [renderStep, hk]
      · have := h kv (by simp) hk
        simp only [renderStep, beq_iff_eq, if_neg hk]
        exact replaceAll_no_occurrence _ _ _ (by simp) this
    rw [List.foldl_cons, hstep]
    exact ih body (fun kv2 h2 => h kv2 (by simp [h2]))

/-- C9 (amended): rendering is idempotent whenever the rendered output no
longer contains a `{{key}}` placeholder for any non-`emails` key of the
row.  (The condition of the original claim — values free of placeholder
tokens — is not sufficient, because sequential substitution can manufacture
a new placeholder out of template text and a value.) -/
theorem render_idempotent_of_no_placeholder_left (template : List Char)
    (row : List (List Char × List Char))
    (h : ∀ kv ∈ row, kv.1 ≠ "emails".data →
      hasSubB ('{' :: '{' :: (kv.1 ++ ['}', '}'])) (render template row) =
        false) :
    render (render template row) row = render template row :=
  render_fixed_of_no_placeholder row (render template row) h

/-- Witness for the amended C9: a fully resolved render is a fixed point. -/
theorem render_idempotent_of_no_placeholder_left_witness :
    render (render "Hello {{name}}".data [("name".data, "Bob".data)])
        [("name".data, "Bob".data)] =
      render "Hello {{name}}".data [("name".data, "Bob".data)] :=
  render_idempotent_of_no_placeholder_left "Hello {{name}}".data
    [("name".data, "Bob".data)] (by decide)
